import Mathlib

/-!
Verification of the two core components of the `fresh` repository:
the persistent chunk tree (`src/chunk_tree.rs`) and the chunked
read/write cache (`src/memstore.rs`).

Bytes are modelled as natural numbers; byte buffers as `List Nat`.
Operations that panic in Rust (out-of-bounds slicing, division by
zero) are modelled as `Option`-returning functions, `none` standing
for the panic.
-/

/-- Chunk-size threshold, `CHUNK_SIZE` in `chunk_tree.rs`. -/
def CHUNK_SIZE : Nat := 1024

/-- The `ChunkTree` enum: a `Leaf` holds a run of bytes, an `Internal`
node holds three ordered children plus a cached total size. -/
inductive ChunkTree where
  | leaf (data : List Nat)
  | internal (left mid right : ChunkTree) (size : Nat)
deriving DecidableEq, Repr

namespace ChunkTree

/-- Fuel-indexed body of `ChunkTree::from_slice`.  The Rust function
recurses on the two halves of the input; the fuel (always instantiated
with the input's length, an upper bound on the recursion depth) makes
the recursion structural.  When the fuel runs out the input is returned
as a single leaf; with fuel ≥ length this branch is never reached. -/
def fromSliceAux : Nat → List Nat → ChunkTree
  | 0, data => .leaf data
  | fuel + 1, data =>
    if data.length ≤ CHUNK_SIZE then
      .leaf data
    else
      let mid_index := data.length / 2
      .internal (fromSliceAux fuel (data.take mid_index)) (.leaf [])
        (fromSliceAux fuel (data.drop mid_index)) data.length

/-- `ChunkTree::from_slice`: a leaf when the data fits in one chunk,
otherwise an internal node over the two halves with an empty-leaf mid. -/
def from_slice (data : List Nat) : ChunkTree :=
  fromSliceAux data.length data

/-- `ChunkTree::new()`: the empty tree. -/
def new : ChunkTree := from_slice []

/-- `ChunkTree::len`: leaf data length, or the cached size field. -/
def len : ChunkTree → Nat
  | .leaf data => data.length
  | .internal _ _ _ size => size

/-- `ChunkTree::is_empty`. -/
def is_empty (t : ChunkTree) : Bool := t.len == 0

/-- `ChunkTree::insert`.  At a leaf, Rust slices `leaf_data[..index]`
and `leaf_data[index..]`, which panics when `index > leaf_data.len()`;
the panic is modelled by `none`. -/
def insert : ChunkTree → Nat → List Nat → Option ChunkTree
  | .leaf leaf_data, index, data =>
    if index ≤ leaf_data.length then
      some (.internal (from_slice (leaf_data.take index)) (from_slice data)
        (from_slice (leaf_data.drop index)) (leaf_data.length + data.length))
    else
      none
  | .internal left mid right _, index, data =>
    let left_size := left.len
    if index ≤ left_size then
      (insert left index data).map fun new_left =>
        .internal new_left mid right (new_left.len + mid.len + right.len)
    else if index ≤ left_size + mid.len then
      (insert mid (index - left_size) data).map fun new_mid =>
        .internal left new_mid right (left_size + new_mid.len + right.len)
    else
      (insert right (index - left_size - mid.len) data).map fun new_right =>
        .internal left mid new_right (left_size + mid.len + new_right.len)

/-- `ChunkTree::range_shift_left` applied to both endpoints: Rust's
`if amount < x { x - amount } else { 0 }` is exactly truncated
subtraction on `Nat`. -/
def range_shift_left (x amount : Nat) : Nat := x - amount

/-- `ChunkTree::remove` over a half-open range `[s, e)`.  At a leaf,
Rust slices `data[..range.start]` and `data[range.end..]`, panicking
when either bound exceeds the data length (modelled by `none`); the
new size is `data.len() - range.len()` with `range.len()` saturating
at 0 for inverted ranges.  At an internal node, a start beyond the
cached size is a no-op clone; otherwise the range is applied to `left`
unmodified and to `mid`/`right` shifted by the preceding lengths. -/
def remove : ChunkTree → Nat → Nat → Option ChunkTree
  | .leaf data, s, e =>
    if s ≤ data.length ∧ e ≤ data.length then
      some (.internal (from_slice (data.take s)) (from_slice [])
        (from_slice (data.drop e)) (data.length - (e - s)))
    else
      none
  | .internal left mid right size, s, e =>
    if size < s then
      some (.internal left mid right size)
    else
      (remove left s e).bind fun new_left =>
        (remove mid (range_shift_left s left.len) (range_shift_left e left.len)).bind
          fun new_mid =>
            (remove right (range_shift_left s (left.len + mid.len))
                (range_shift_left e (left.len + mid.len))).map fun new_right =>
              .internal new_left new_mid new_right
                (new_left.len + new_mid.len + new_right.len)

/-- `ChunkTree::collect_bytes` / `collect_bytes_into`: in-order
(left, mid, right) traversal into a single byte sequence. -/
def collect_bytes : ChunkTree → List Nat
  | .leaf data => data
  | .internal left mid right _ => left.collect_bytes ++ mid.collect_bytes ++ right.collect_bytes

/-- The size-cache invariant: every internal node's cached size equals
the sum of its three children's lengths. -/
def sizeOk : ChunkTree → Bool
  | .leaf _ => true
  | .internal left mid right size =>
    (size == left.len + mid.len + right.len) && left.sizeOk && mid.sizeOk && right.sizeOk

/-- Length of the leftmost leaf of a tree. -/
def leftLen : ChunkTree → Nat
  | .leaf data => data.length
  | .internal left _ _ _ => left.leftLen

/-- Whether a tree's root is an `Internal` node. -/
def isInternal : ChunkTree → Bool
  | .leaf _ => false
  | .internal _ _ _ _ => true

/-- Trees reachable from the public constructors: bulk build (which
subsumes `new`), in-bounds insert, and valid in-bounds remove. -/
inductive Reachable : ChunkTree → Prop where
  | build (data : List Nat) : Reachable (from_slice data)
  | ins (t t' : ChunkTree) (i : Nat) (data : List Nat) :
      Reachable t → i ≤ t.len → t.insert i data = some t' → Reachable t'
  | rem (t t' : ChunkTree) (a b : Nat) :
      Reachable t → a ≤ b → b ≤ t.len → t.remove a b = some t' → Reachable t'

end ChunkTree

/-- The `Chunk` enum of `memstore.rs`: loaded bytes together with the
`need_store` (dirty) flag, or an empty marker recording that the
backing store had no data for this index. -/
inductive Chunk where
  | loaded (data : List Nat) (need_store : Bool)
  | empty
deriving DecidableEq, Repr

/-- The `Memstore` struct: the chunk map (modelled as an association
list in insertion order, standing for the `HashMap`) plus the chunk
size.  The `load_store` capability is passed to each operation as an
explicit function argument instead of being stored in the structure,
so states stay decidably comparable; this does not change any
behaviour since the Rust field is only ever read. -/
structure Memstore where
  chunks : List (Nat × Chunk)
  chunk_size : Nat
deriving DecidableEq, Repr

namespace Memstore

/-- `Memstore::new`: stores the arguments; performs no validation of
`chunk_size`. -/
def new (chunk_size : Nat) : Memstore :=
  { chunks := [], chunk_size := chunk_size }

/-- Association-list lookup, modelling `HashMap` key lookup. -/
def lookupChunk : List (Nat × Chunk) → Nat → Option Chunk
  | [], _ => none
  | (k, c) :: rest, i => if k = i then some c else lookupChunk rest i

/-- The chunk the `or_insert_with_key` closure builds on a cache miss:
`load` data becomes `Loaded{need_store: false}`, absence becomes `Empty`. -/
def loadChunk (load : Nat → Option (List Nat)) (idx : Nat) : Chunk :=
  match load idx with
  | some data => .loaded data false
  | none => .empty

/-- `Memstore::get`: computes `chunk_index = offset / chunk_size` and
returns the cached entry for that index, consulting `load` and
inserting the result on a miss.  Division by zero — a Rust panic when
`chunk_size = 0` — is modelled as `none`.  The result carries the
returned chunk, the updated store, and the list of indices passed to
`load` during the call. -/
def get (load : Nat → Option (List Nat)) (ms : Memstore) (offset : Nat) :
    Option (Chunk × Memstore × List Nat) :=
  if ms.chunk_size = 0 then
    none
  else
    let chunk_index := offset / ms.chunk_size
    match lookupChunk ms.chunks chunk_index with
    | some c => some (c, ms, [])
    | none =>
      let c := loadChunk load chunk_index
      some (c, { chunks := ms.chunks ++ [(chunk_index, c)], chunk_size := ms.chunk_size },
        [chunk_index])

/-- `Memstore::store_all` on the chunk map: every `Loaded` entry whose
`need_store` flag is set produces one `store(index, data)` call (the
second component, in iteration order) and has its flag cleared; all
other entries are untouched. -/
def store_all : List (Nat × Chunk) → List (Nat × Chunk) × List (Nat × List Nat)
  | [] => ([], [])
  | (i, Chunk.loaded data true) :: rest =>
    let r := store_all rest
    ((i, Chunk.loaded data false) :: r.1, (i, data) :: r.2)
  | (i, c) :: rest =>
    let r := store_all rest
    ((i, c) :: r.1, r.2)

/-- The `store` call a map entry gives rise to during `store_all`. -/
def dirtyEntry : Nat × Chunk → Option (Nat × List Nat)
  | (i, .loaded data true) => some (i, data)
  | _ => none

/-- Whether a chunk is `Loaded` with the `need_store` flag set. -/
def isDirty : Chunk → Bool
  | .loaded _ b => b
  | .empty => false

/-- The data bytes held by a chunk, if any. -/
def chunkData : Chunk → Option (List Nat)
  | .loaded data _ => some data
  | .empty => none

end Memstore

namespace ChunkTree

theorem collect_fromSliceAux (fuel : Nat) (data : List Nat) :
    (fromSliceAux fuel data).collect_bytes = data := by
  induction fuel generalizing data with
  | zero => rfl
  | succ fuel ih =>
    simp only [fromSliceAux]
    split
    · rfl
    · simp [collect_bytes, ih, List.take_append_drop]

/-- Flattening a built tree recovers the input. -/
theorem collect_from_slice (data : List Nat) :
    (from_slice data).collect_bytes = data :=
  collect_fromSliceAux data.length data

theorem len_fromSliceAux (fuel : Nat) (data : List Nat) :
    (fromSliceAux fuel data).len = data.length := by
  cases fuel with
  | zero => rfl
  | succ fuel =>
    simp only [fromSliceAux]
    split
    · rfl
    · rfl

theorem len_from_slice (data : List Nat) : (from_slice data).len = data.length :=
  len_fromSliceAux data.length data

theorem sizeOk_fromSliceAux (fuel : Nat) (data : List Nat) :
    (fromSliceAux fuel data).sizeOk = true := by
  induction fuel generalizing data with
  | zero => rfl
  | succ fuel ih =>
    simp only [fromSliceAux]
    split
    · rfl
    · rename_i h
      simp only [sizeOk, ih, Bool.and_true, beq_iff_eq]
      rw [len_fromSliceAux, len_fromSliceAux]
      simp only [len, List.length_take, List.length_drop, List.length_nil]
      omega

/-- Built trees satisfy the size-cache invariant. -/
theorem sizeOk_from_slice (data : List Nat) : (from_slice data).sizeOk = true :=
  sizeOk_fromSliceAux data.length data

/-- Under the size invariant, the cached length is the flattened length. -/
theorem len_eq_collect_length (t : ChunkTree) (h : t.sizeOk = true) :
    t.len = t.collect_bytes.length := by
  induction t with
  | leaf data => rfl
  | internal left mid right size ihl ihm ihr =>
    simp only [sizeOk, Bool.and_eq_true, beq_iff_eq] at h
    simp only [len, collect_bytes, List.length_append]
    rw [h.1.1.1, ihl h.1.1.2, ihm h.1.2, ihr h.2]

theorem leftLen_le_len (t : ChunkTree) (hs : t.sizeOk = true) : t.leftLen ≤ t.len := by
  induction t with
  | leaf data => exact Nat.le_refl _
  | internal left mid right size ihl ihm ihr =>
    simp only [sizeOk, Bool.and_eq_true, beq_iff_eq] at hs
    simp only [leftLen, len]
    have := ihl hs.1.1.2
    omega

theorem take_app_ge (x y : List Nat) (i : Nat) (h : x.length ≤ i) :
    (x ++ y).take i = x ++ y.take (i - x.length) := by
  rw [List.take_append_eq_append_take, List.take_of_length_le h]

theorem drop_app_ge (x y : List Nat) (i : Nat) (h : x.length ≤ i) :
    (x ++ y).drop i = y.drop (i - x.length) := by
  rw [List.drop_append_eq_append_drop, List.drop_eq_nil_of_le h, List.nil_append]

theorem take_app_le (x y : List Nat) (i : Nat) (h : i ≤ x.length) :
    (x ++ y).take i = x.take i :=
  List.take_append_of_le_length h

theorem drop_app_le (x y : List Nat) (i : Nat) (h : i ≤ x.length) :
    (x ++ y).drop i = x.drop i ++ y := by
  rw [List.drop_append_eq_append_drop, Nat.sub_eq_zero_of_le h, List.drop_zero]

theorem splice3_left (x y z d : List Nat) (i : Nat) (h : i ≤ x.length) :
    (x ++ y ++ z).take i ++ d ++ (x ++ y ++ z).drop i
      = (x.take i ++ d ++ x.drop i) ++ y ++ z := by
  rw [take_app_le (x ++ y) z i (by rw [List.length_append]; omega),
    drop_app_le (x ++ y) z i (by rw [List.length_append]; omega),
    take_app_le x y i h, drop_app_le x y i h]
  simp [List.append_assoc]

theorem splice3_mid (x y z d : List Nat) (i : Nat) (h1 : x.length ≤ i)
    (h2 : i ≤ x.length + y.length) :
    (x ++ y ++ z).take i ++ d ++ (x ++ y ++ z).drop i
      = x ++ (y.take (i - x.length) ++ d ++ y.drop (i - x.length)) ++ z := by
  rw [take_app_le (x ++ y) z i (by rw [List.length_append]; omega),
    drop_app_le (x ++ y) z i (by rw [List.length_append]; omega),
    take_app_ge x y i h1, drop_app_ge x y i h1]
  simp [List.append_assoc]

theorem splice3_right (x y z d : List Nat) (i : Nat) (h : x.length + y.length ≤ i) :
    (x ++ y ++ z).take i ++ d ++ (x ++ y ++ z).drop i
      = x ++ y ++ (z.take (i - x.length - y.length) ++ d ++ z.drop (i - x.length - y.length)) := by
  rw [take_app_ge (x ++ y) z i (by rw [List.length_append]; omega),
    drop_app_ge (x ++ y) z i (by rw [List.length_append]; omega),
    List.length_append, Nat.sub_add_eq]
  simp [List.append_assoc]

theorem delete3_left (x y z : List Nat) (a b : Nat) (hab : a ≤ b) (hb : b ≤ x.length) :
    (x ++ y ++ z).take a ++ (x ++ y ++ z).drop b = (x.take a ++ x.drop b) ++ y ++ z := by
  rw [take_app_le (x ++ y) z a (by rw [List.length_append]; omega),
    drop_app_le (x ++ y) z b (by rw [List.length_append]; omega),
    take_app_le x y a (by omega), drop_app_le x y b hb]
  simp [List.append_assoc]

theorem insert_spec (t : ChunkTree) (i : Nat) (d : List Nat)
    (hs : t.sizeOk = true) (hi : i ≤ t.len) :
    ∃ t', t.insert i d = some t' ∧
      t'.collect_bytes = t.collect_bytes.take i ++ d ++ t.collect_bytes.drop i ∧
      t'.len = t.len + d.length ∧ t'.sizeOk = true := by
  induction t generalizing i with
  | leaf ld =>
    simp only [len] at hi
    refine ⟨.internal (from_slice (ld.take i)) (from_slice d) (from_slice (ld.drop i))
      (ld.length + d.length), ?_, ?_, ?_, ?_⟩
    · simp only [insert, if_pos hi]
    · simp only [collect_bytes, collect_from_slice]
    · simp only [len]
    · simp only [sizeOk, len_from_slice, sizeOk_from_slice, Bool.and_true, beq_iff_eq,
        List.length_take, List.length_drop]
      omega
  | internal left mid right size ihl ihm ihr =>
    simp only [sizeOk, Bool.and_eq_true, beq_iff_eq] at hs
    obtain ⟨⟨⟨hsize, hsl⟩, hsm⟩, hsr⟩ := hs
    simp only [len] at hi
    have hfl : left.collect_bytes.length = left.len := (len_eq_collect_length left hsl).symm
    have hfm : mid.collect_bytes.length = mid.len := (len_eq_collect_length mid hsm).symm
    have hfr : right.collect_bytes.length = right.len := (len_eq_collect_length right hsr).symm
    by_cases h1 : i ≤ left.len
    · obtain ⟨l', hl', hcl, hll, hsl'⟩ := ihl i hsl h1
      refine ⟨.internal l' mid right (l'.len + mid.len + right.len), ?_, ?_, ?_, ?_⟩
      · simp only [insert]
        rw [if_pos h1, hl']
        rfl
      · simp only [collect_bytes, hcl]
        rw [splice3_left _ _ _ _ _ (by omega)]
      · show l'.len + mid.len + right.len = size + d.length
        omega
      · simp [sizeOk, hsl', hsm, hsr]
    · by_cases h2 : i ≤ left.len + mid.len
      · obtain ⟨m', hm', hcm, hlm, hsm'⟩ := ihm (i - left.len) hsm (by omega)
        refine ⟨.internal left m' right (left.len + m'.len + right.len), ?_, ?_, ?_, ?_⟩
        · simp only [insert]
          rw [if_neg h1, if_pos h2, hm']
          rfl
        · simp only [collect_bytes, hcm]
          rw [splice3_mid _ _ _ _ _ (by omega) (by omega), hfl]
        · show left.len + m'.len + right.len = size + d.length
          omega
        · simp [sizeOk, hsl, hsm', hsr]
      · obtain ⟨r', hr', hcr, hlr, hsr'⟩ := ihr (i - left.len - mid.len) hsr (by omega)
        refine ⟨.internal left mid r' (left.len + mid.len + r'.len), ?_, ?_, ?_, ?_⟩
        · simp only [insert]
          rw [if_neg h1, if_neg h2, hr']
          rfl
        · simp only [collect_bytes, hcr]
          rw [splice3_right _ _ _ _ _ (by omega), hfl, hfm]
        · show left.len + mid.len + r'.len = size + d.length
          omega
        · simp [sizeOk, hsl, hsm, hsr']

theorem insert_gt (t : ChunkTree) (i : Nat) (d : List Nat)
    (hs : t.sizeOk = true) (hi : t.len < i) : t.insert i d = none := by
  induction t generalizing i with
  | leaf ld =>
    simp only [len] at hi
    simp only [insert]
    rw [if_neg (by omega)]
  | internal left mid right size ihl ihm ihr =>
    simp only [sizeOk, Bool.and_eq_true, beq_iff_eq] at hs
    obtain ⟨⟨⟨hsize, hsl⟩, hsm⟩, hsr⟩ := hs
    simp only [len] at hi
    simp only [insert]
    rw [if_neg (by omega), if_neg (by omega), ihr (i - left.len - mid.len) hsr (by omega)]
    rfl

theorem remove_zero (t : ChunkTree) (hs : t.sizeOk = true) :
    ∃ t', t.remove 0 0 = some t' ∧ t'.collect_bytes = t.collect_bytes ∧ t'.len = t.len := by
  induction t with
  | leaf data =>
    refine ⟨.internal (from_slice (data.take 0)) (from_slice []) (from_slice (data.drop 0))
      (data.length - (0 - 0)), ?_, ?_, ?_⟩
    · simp only [remove, if_pos (And.intro (Nat.zero_le _) (Nat.zero_le _))]
    · simp [collect_bytes, collect_from_slice]
    · show data.length - (0 - 0) = data.length
      omega
  | internal left mid right size ihl ihm ihr =>
    simp only [sizeOk, Bool.and_eq_true, beq_iff_eq] at hs
    obtain ⟨⟨⟨hsize, hsl⟩, hsm⟩, hsr⟩ := hs
    obtain ⟨l', hl', hcl, hll⟩ := ihl hsl
    obtain ⟨m', hm', hcm, hlm⟩ := ihm hsm
    obtain ⟨r', hr', hcr, hlr⟩ := ihr hsr
    refine ⟨.internal l' m' r' (l'.len + m'.len + r'.len), ?_, ?_, ?_⟩
    · simp only [remove, range_shift_left, Nat.zero_sub]
      rw [if_neg (by omega), hl', hm', hr']
      rfl
    · simp only [collect_bytes, hcl, hcm, hcr]
    · show l'.len + m'.len + r'.len = size
      omega

theorem sizeOk_remove (t : ChunkTree) (a b : Nat) (t' : ChunkTree) (hs : t.sizeOk = true)
    (hab : a ≤ b) (h : t.remove a b = some t') : t'.sizeOk = true := by
  induction t generalizing a b t' with
  | leaf data =>
    simp only [remove] at h
    split at h
    · rename_i hcond
      injection h with h
      subst h
      simp only [sizeOk, sizeOk_from_slice, Bool.and_true, beq_iff_eq]
      rw [len_from_slice, len_from_slice, len_from_slice]
      simp only [List.length_take, List.length_drop, List.length_nil]
      omega
    · exact absurd h (by simp)
  | internal left mid right size ihl ihm ihr =>
    simp only [sizeOk, Bool.and_eq_true, beq_iff_eq] at hs
    obtain ⟨⟨⟨hsize, hsl⟩, hsm⟩, hsr⟩ := hs
    simp only [remove, range_shift_left] at h
    split at h
    · injection h with h
      subst h
      simp [sizeOk, hsl, hsm, hsr, hsize]
    · obtain ⟨l', hl', h⟩ := Option.bind_eq_some.mp h
      obtain ⟨m', hm', h⟩ := Option.bind_eq_some.mp h
      obtain ⟨r', hr', rfl⟩ := Option.map_eq_some'.mp h
      have hl'' := ihl a b l' hsl hab hl'
      have hm'' := ihm _ _ m' hsm (Nat.sub_le_sub_right hab _) hm'
      have hr'' := ihr _ _ r' hsr (Nat.sub_le_sub_right hab _) hr'
      simp [sizeOk, hl'', hm'', hr'']

theorem remove_spec (t : ChunkTree) (a b : Nat) (hs : t.sizeOk = true)
    (hab : a ≤ b) (hb : b ≤ t.leftLen) :
    ∃ t', t.remove a b = some t' ∧
      t'.collect_bytes = t.collect_bytes.take a ++ t.collect_bytes.drop b ∧
      t'.len = t.len - (b - a) := by
  induction t with
  | leaf data =>
    simp only [leftLen] at hb
    refine ⟨.internal (from_slice (data.take a)) (from_slice []) (from_slice (data.drop b))
      (data.length - (b - a)), ?_, ?_, ?_⟩
    · have hcond : a ≤ data.length ∧ b ≤ data.length := ⟨by omega, hb⟩
      simp only [remove, if_pos hcond]
    · simp [collect_bytes, collect_from_slice]
    · rfl
  | internal left mid right size ihl ihm ihr =>
    simp only [sizeOk, Bool.and_eq_true, beq_iff_eq] at hs
    obtain ⟨⟨⟨hsize, hsl⟩, hsm⟩, hsr⟩ := hs
    simp only [leftLen] at hb
    have hlll : left.leftLen ≤ left.len := leftLen_le_len left hsl
    obtain ⟨l', hl', hcl, hll⟩ := ihl hsl hb
    have hza : a - left.len = 0 := by omega
    have hzb : b - left.len = 0 := by omega
    have hza2 : a - (left.len + mid.len) = 0 := by omega
    have hzb2 : b - (left.len + mid.len) = 0 := by omega
    obtain ⟨m', hm', hcm, hlm⟩ := remove_zero mid hsm
    obtain ⟨r', hr', hcr, hlr⟩ := remove_zero right hsr
    refine ⟨.internal l' m' r' (l'.len + m'.len + r'.len), ?_, ?_, ?_⟩
    · simp only [remove, range_shift_left, hza, hzb, hza2, hzb2]
      rw [if_neg (by omega), hl', hm', hr']
      rfl
    · simp only [collect_bytes, hcl, hcm, hcr]
      have hfl : left.collect_bytes.length = left.len := (len_eq_collect_length left hsl).symm
      rw [delete3_left _ _ _ _ _ hab (by omega)]
    · show l'.len + m'.len + r'.len = size - (b - a)
      omega

end ChunkTree

namespace Memstore

theorem lookupChunk_append_self (xs : List (Nat × Chunk)) (k : Nat) (c : Chunk)
    (h : lookupChunk xs k = none) : lookupChunk (xs ++ [(k, c)]) k = some c := by
  induction xs with
  | nil => simp [lookupChunk]
  | cons p rest ih =>
    obtain ⟨a, d⟩ := p
    simp only [List.cons_append, lookupChunk] at h ⊢
    split at h
    · exact absurd h (by simp)
    · rename_i hne
      rw [if_neg hne]
      exact ih h

end Memstore

namespace ChunkTree

/-- C2: for every byte sequence S, flattening the tree built from S by
`from_slice` (recursive midpoint splitting, leaves at or below the
1024-byte threshold) yields S again; the universally quantified
statement covers inputs below, at, and above the threshold. -/
theorem build_then_flatten_id (S : List Nat) :
    (ChunkTree.from_slice S).collect_bytes = S :=
  collect_from_slice S

/-- C3: for every size-correct tree (the invariant every reachable
tree satisfies), every index `i ≤ len`, and every byte sequence `d`,
`insert` succeeds, flattening the result splices `d` in at position
`i`, and the cached length grows by `d.length`. -/
theorem insert_correct (t : ChunkTree) (i : Nat) (d : List Nat)
    (hs : t.sizeOk = true) (hi : i ≤ t.len) :
    (t.insert i d).isSome = true
    ∧ (t.insert i d).map ChunkTree.collect_bytes
        = some (t.collect_bytes.take i ++ d ++ t.collect_bytes.drop i)
    ∧ (t.insert i d).map ChunkTree.len = some (t.len + d.length) := by
  obtain ⟨t', ht', hc, hl, _⟩ := insert_spec t i d hs hi
  rw [ht']
  exact ⟨rfl, by rw [Option.map_some', hc], by rw [Option.map_some', hl]⟩

theorem insert_correct_witness :
    ((ChunkTree.from_slice [7, 8]).insert 1 [9]).isSome = true
    ∧ ((ChunkTree.from_slice [7, 8]).insert 1 [9]).map ChunkTree.collect_bytes
        = some ((ChunkTree.from_slice [7, 8]).collect_bytes.take 1 ++ [9]
            ++ (ChunkTree.from_slice [7, 8]).collect_bytes.drop 1)
    ∧ ((ChunkTree.from_slice [7, 8]).insert 1 [9]).map ChunkTree.len
        = some ((ChunkTree.from_slice [7, 8]).len + [9].length) :=
  insert_correct (ChunkTree.from_slice [7, 8]) 1 [9] (by decide) (by decide)

/-- C4: on a size-correct tree, `insert` fails (the modelled
out-of-bounds panic) exactly when the index exceeds the current
length; in particular appending at index `len` always succeeds. -/
theorem insert_out_of_bounds_iff (t : ChunkTree) (i : Nat) (d : List Nat)
    (hs : t.sizeOk = true) :
    (t.insert i d = none ↔ t.len < i) ∧ (t.insert t.len d).isSome = true := by
  constructor
  · constructor
    · intro h
      by_contra hlt
      push_neg at hlt
      obtain ⟨t', ht', _⟩ := insert_spec t i d hs hlt
      rw [ht'] at h
      exact Option.noConfusion h
    · intro h
      exact insert_gt t i d hs h
  · obtain ⟨t', ht', _⟩ := insert_spec t t.len d hs (Nat.le_refl _)
    rw [ht']
    rfl

theorem insert_out_of_bounds_iff_witness :
    ((ChunkTree.from_slice [1, 2]).insert 5 [3] = none ↔ (ChunkTree.from_slice [1, 2]).len < 5)
    ∧ ((ChunkTree.from_slice [1, 2]).insert (ChunkTree.from_slice [1, 2]).len [3]).isSome
        = true :=
  insert_out_of_bounds_iff (ChunkTree.from_slice [1, 2]) 5 [3] (by decide)

/-- C5: every tree reachable from `from_slice`/`new` via in-bounds
`insert` and valid in-bounds `remove` satisfies the size-cache
invariant: each internal node's cached size equals the sum of its
three children's lengths (so each of the three operations preserves
the invariant). -/
theorem reachable_sizeOk (t : ChunkTree) (h : Reachable t) : t.sizeOk = true := by
  induction h with
  | build data => exact sizeOk_from_slice data
  | ins t t' i data hr hi hins ih =>
    obtain ⟨t'', ht'', _, _, hs''⟩ := insert_spec t i data ih hi
    rw [hins] at ht''
    injection ht'' with e
    rw [e]
    exact hs''
  | rem t t' a b hr hab hb hrem ih =>
    exact sizeOk_remove t a b t' ih hab hrem

theorem reachable_sizeOk_witness : (ChunkTree.from_slice [0, 1]).sizeOk = true :=
  reachable_sizeOk (ChunkTree.from_slice [0, 1]) (Reachable.build [0, 1])

/-- C1 (amended): on a size-correct tree, removal of `[a, b)` with
`a ≤ b` succeeds with the specified flatten and length behaviour
whenever `b` does not exceed the length of the leftmost leaf (in
particular, for any single-leaf tree this is every valid range).
Beyond the leftmost leaf the operation can fail even for ranges that
are valid for the whole tree: see the counterexample. -/
theorem remove_within_left_leaf_correct (t : ChunkTree) (a b : Nat)
    (hs : t.sizeOk = true) (hab : a ≤ b) (hb : b ≤ t.leftLen) :
    (t.remove a b).isSome = true
    ∧ (t.remove a b).map ChunkTree.collect_bytes
        = some (t.collect_bytes.take a ++ t.collect_bytes.drop b)
    ∧ (t.remove a b).map ChunkTree.len = some (t.len - (b - a)) := by
  obtain ⟨t', ht', hc, hl⟩ := remove_spec t a b hs hab hb
  rw [ht']
  exact ⟨rfl, by rw [Option.map_some', hc], by rw [Option.map_some', hl]⟩

theorem remove_within_left_leaf_correct_witness :
    ((ChunkTree.from_slice [3, 4, 5]).remove 1 3).isSome = true
    ∧ ((ChunkTree.from_slice [3, 4, 5]).remove 1 3).map ChunkTree.collect_bytes
        = some ((ChunkTree.from_slice [3, 4, 5]).collect_bytes.take 1
            ++ (ChunkTree.from_slice [3, 4, 5]).collect_bytes.drop 3)
    ∧ ((ChunkTree.from_slice [3, 4, 5]).remove 1 3).map ChunkTree.len
        = some ((ChunkTree.from_slice [3, 4, 5]).len - (3 - 1)) :=
  remove_within_left_leaf_correct (ChunkTree.from_slice [3, 4, 5]) 1 3
    (by decide) (by decide) (by decide)

/-- C1 counterexample: the tree built from `[0,1,2,3,4]` and extended
by an in-bounds insert at index 5 is reachable and has length 7, yet
removal of the valid range `[3, 7)`-internal `[3, 6)` fails (`none`,
the modelled panic), because the range's end exceeds the leftmost
leaf's length: the claim as stated is false. -/
theorem remove_valid_range_can_fail :
    ((ChunkTree.from_slice [0, 1, 2, 3, 4]).insert 5 [5, 6]).map
      (fun t => (t.len, t.remove 3 6)) = some (7, none) := by
  decide

/-- C6: removing the inverted range `[3, 1)` from the leaf
`[0,1,2,3,4]` does not fail with any `InvalidRange` error; it succeeds
and returns a corrupted internal node that flattens to 7 bytes (the
bytes at positions `[1, 3)` are duplicated) while its cached size
field says 5, violating the size invariant the code maintains
everywhere else. -/
theorem remove_inverted_range_corrupts :
    ((ChunkTree.leaf [0, 1, 2, 3, 4]).remove 3 1).map
      (fun t => (t.collect_bytes, t.len, t.sizeOk)) = some ([0, 1, 2, 1, 2, 3, 4], 5, false) := by
  decide

/-- C10: a successful `remove` always returns an `Internal` node, and
on a leaf the result is exactly the internal node whose left child
rebuilds the prefix before the range, whose mid child is an empty
leaf, and whose right child rebuilds the suffix from the range's end. -/
theorem remove_result_internal (t : ChunkTree) (d : List Nat) (a b : Nat)
    (t1 t2 : ChunkTree) :
    (t.remove a b = some t1 → t1.isInternal = true)
    ∧ ((ChunkTree.leaf d).remove a b = some t2
        → t2 = ChunkTree.internal (from_slice (d.take a)) (ChunkTree.leaf [])
            (from_slice (d.drop b)) (d.length - (b - a))) := by
  constructor
  · intro h
    cases t with
    | leaf data =>
      simp only [remove] at h
      split at h
      · injection h with h
        rw [← h]
        rfl
      · exact absurd h (by simp)
    | internal left mid right size =>
      simp only [remove] at h
      split at h
      · injection h with h
        rw [← h]
        rfl
      · obtain ⟨l', _, h⟩ := Option.bind_eq_some.mp h
        obtain ⟨m', _, h⟩ := Option.bind_eq_some.mp h
        obtain ⟨r', _, rfl⟩ := Option.map_eq_some'.mp h
        rfl
  · intro h
    simp only [remove] at h
    split at h
    · injection h with h
      rw [← h]
      rfl
    · exact absurd h (by simp)

theorem remove_result_internal_witness :
    ((ChunkTree.internal (ChunkTree.leaf []) (ChunkTree.leaf []) (ChunkTree.leaf [6]) 1).isInternal
        = true)
    ∧ (ChunkTree.internal (ChunkTree.leaf []) (ChunkTree.leaf []) (ChunkTree.leaf [6]) 1
        = ChunkTree.internal (ChunkTree.from_slice (List.take 0 [5, 6])) (ChunkTree.leaf [])
            (ChunkTree.from_slice (List.drop 1 [5, 6])) (List.length [5, 6] - (1 - 0))) :=
  ⟨(remove_result_internal (ChunkTree.leaf [5, 6]) [5, 6] 0 1
      (ChunkTree.internal (ChunkTree.leaf []) (ChunkTree.leaf []) (ChunkTree.leaf [6]) 1)
      (ChunkTree.internal (ChunkTree.leaf []) (ChunkTree.leaf []) (ChunkTree.leaf [6]) 1)).1
      (by decide),
    (remove_result_internal (ChunkTree.leaf [5, 6]) [5, 6] 0 1
      (ChunkTree.internal (ChunkTree.leaf []) (ChunkTree.leaf []) (ChunkTree.leaf [6]) 1)
      (ChunkTree.internal (ChunkTree.leaf []) (ChunkTree.leaf []) (ChunkTree.leaf [6]) 1)).2
      (by decide)⟩

end ChunkTree

namespace Memstore

/-- C7: `Memstore::new` performs no validation: constructing a cache
with `chunk_size = 0` succeeds and returns an ordinary cache value;
the failure only surfaces later, on the first `get`, as a division by
zero (modelled as `none`).  Construction does not fail with any
`InvalidConfiguration` error. -/
theorem new_zero_chunk_size_accepted :
    Memstore.new 0 = { chunks := [], chunk_size := 0 }
    ∧ (Memstore.new 0).chunk_size = 0
    ∧ Memstore.get (fun _ => some [1]) (Memstore.new 0) 7 = none :=
  ⟨rfl, rfl, rfl⟩

/-- C8: with a positive chunk size, `get` maps an offset to chunk
index `offset / chunk_size`; on a miss it calls `load` exactly once
with that index, caching `Loaded{need_store: false}` or `Empty`
according to the result, and any subsequent access with an offset in
the same chunk returns the same cached entry, leaves the cache
unchanged, and performs no further `load` call. -/
theorem get_spec (load : Nat → Option (List Nat)) (ms : Memstore) (off1 off2 : Nat)
    (hcs : ms.chunk_size ≠ 0)
    (hmiss : lookupChunk ms.chunks (off1 / ms.chunk_size) = none)
    (hsame : off2 / ms.chunk_size = off1 / ms.chunk_size) :
    Memstore.get load ms off1
      = some (loadChunk load (off1 / ms.chunk_size),
        { chunks := ms.chunks
            ++ [(off1 / ms.chunk_size, loadChunk load (off1 / ms.chunk_size))],
          chunk_size := ms.chunk_size },
        [off1 / ms.chunk_size])
    ∧ Memstore.get load
        { chunks := ms.chunks
            ++ [(off1 / ms.chunk_size, loadChunk load (off1 / ms.chunk_size))],
          chunk_size := ms.chunk_size }
        off2
      = some (loadChunk load (off1 / ms.chunk_size),
        { chunks := ms.chunks
            ++ [(off1 / ms.chunk_size, loadChunk load (off1 / ms.chunk_size))],
          chunk_size := ms.chunk_size },
        []) := by
  have hl := lookupChunk_append_self ms.chunks (off1 / ms.chunk_size)
    (loadChunk load (off1 / ms.chunk_size)) hmiss
  constructor
  · simp [get, hcs, hmiss]
  · simp [get, hcs, hsame, hl]

theorem get_spec_witness :
    Memstore.get (fun i => if i = 0 then some [9] else none) (Memstore.new 4) 1
      = some (Chunk.loaded [9] false,
        { chunks := [(0, Chunk.loaded [9] false)], chunk_size := 4 }, [0])
    ∧ Memstore.get (fun i => if i = 0 then some [9] else none)
        { chunks := [(0, Chunk.loaded [9] false)], chunk_size := 4 } 3
      = some (Chunk.loaded [9] false,
        { chunks := [(0, Chunk.loaded [9] false)], chunk_size := 4 }, []) :=
  get_spec (fun i => if i = 0 then some [9] else none) (Memstore.new 4) 1 3
    (by decide) (by rfl) (by rfl)

/-- C9: `store_all` emits, in iteration order, exactly one
`store(index, data)` call per `Loaded` dirty entry (clean and `Empty`
entries contribute none), clears every dirty flag, and changes no
entry's index or data bytes. -/
theorem store_all_spec (cs : List (Nat × Chunk)) :
    (store_all cs).2 = cs.filterMap dirtyEntry
    ∧ ((store_all cs).1.all fun p => !isDirty p.2) = true
    ∧ (store_all cs).1.map (fun p => (p.1, chunkData p.2))
        = cs.map fun p => (p.1, chunkData p.2) := by
  induction cs with
  | nil => exact ⟨rfl, rfl, rfl⟩
  | cons p rest ih =>
    obtain ⟨i, c⟩ := p
    cases c with
    | loaded data b =>
      cases b with
      | true =>
        exact ⟨congrArg (List.cons (i, data)) ih.1, ih.2.1,
          congrArg (List.cons (i, some data)) ih.2.2⟩
      | false =>
        exact ⟨ih.1, ih.2.1, congrArg (List.cons (i, some data)) ih.2.2⟩
    | empty =>
      exact ⟨ih.1, ih.2.1, congrArg (List.cons (i, (none : Option (List Nat)))) ih.2.2⟩

end Memstore
